import Mathlib

set_option maxRecDepth 8000

/-!
Verification of the log-follow tailing engine (src/main.py).

Strings are modelled as `List Char` (the log files are ASCII, one byte per
character, so byte offsets coincide with character offsets).

The regular expression

  pattern = f"{date_patt} {time_patt} {thread_patt} {level_patt} {logging_class_patt} - (?P<message>.+)"

is embedded as a deterministic parser.  Determinisation is justified because
every greedy sub-pattern is followed by a delimiter outside its character
class (a digit run is followed by a non-digit, an `[A-Z]+` run by a space,
each `[a-zA-Z0-9]+` run inside the dotted logger path by `.` or by the
literal " - "), so Python's backtracking can never succeed where the greedy
longest-match parse fails.  `re.match` anchors at the start of the string and
does not require the whole string to be consumed; trailing input after the
match is ignored, which the parser mirrors by discarding the final rest.
-/

/-- One capture step: exactly `n` decimal digits (`\d{n}` in the pattern). -/
def parseDigits : Nat → List Char → Option (List Char × List Char)
  | 0, s => some ([], s)
  | _ + 1, [] => none
  | n + 1, c :: cs =>
    if c.isDigit then (parseDigits n cs).map (fun p => (c :: p.1, p.2)) else none

/-- A single literal character of the pattern. -/
def parseChar (ch : Char) : List Char → Option (List Char)
  | [] => none
  | c :: cs => if c = ch then some cs else none

/-- A literal string of the pattern. -/
def parseLit : List Char → List Char → Option (List Char)
  | [], s => some s
  | _ :: _, [] => none
  | p :: ps, c :: cs => if c = p then parseLit ps cs else none

/-- Greedy nonempty character-class run (`[...]+`). -/
def takeWhile1 (p : Char → Bool) (s : List Char) : Option (List Char × List Char) :=
  match s.takeWhile p with
  | [] => none
  | l => some (l, s.drop l.length)

/-- The pattern piece `thread_patt = r"\[(\d+|\.NET TP Worker)\]"` without the opening bracket:
the alternation tries the digit run first, then the literal thread name, and
in both branches the closing `]` must follow. -/
def parseThreadBody (s : List Char) : Option (List Char) :=
  (do
    let (_, r) ← takeWhile1 Char.isDigit s
    parseChar ']' r) <|>
  (do
    let r ← parseLit ".NET TP Worker".toList s
    parseChar ']' r)

/-- The repeated group `([a-zA-Z0-9]+\.)+` of `logging_class_patt`: consume as
many `alnum+ "."` segments as possible, at least one.  Each segment consumes
at least two characters, so `s.length + 1` fuel can never run out before the
input does; fuel exhaustion returns `none` exactly like a failed segment. -/
def parseSegsAux : Nat → List Char → Option (List Char)
  | 0, _ => none
  | fuel + 1, s => do
    let (_, r) ← takeWhile1 Char.isAlphanum s
    let r ← parseChar '.' r
    match parseSegsAux fuel r with
    | some r2 => some r2
    | none => some r

def parseSegs (s : List Char) : Option (List Char) :=
  parseSegsAux (s.length + 1) s

/-- The named capture groups of `pattern` (`year` and the thread id are
matched but the thread id is not captured by name; the `,\d{3}` millisecond
part lies outside the `time` group). -/
structure MatchGroups where
  year : List Char
  month : List Char
  day : List Char
  time : List Char
  level : List Char
  logging_class : List Char
  message : List Char

/-- The pattern piece `date_patt = r"(?P<year>\d{4})-(?P<month>\d{2})-(?P<day>\d{2})"`:
returns `((year, month, day), rest)`. -/
def parseDate (s : List Char) : Option ((List Char × List Char × List Char) × List Char) := do
  let (year, s) ← parseDigits 4 s
  let s ← parseChar '-' s
  let (month, s) ← parseDigits 2 s
  let s ← parseChar '-' s
  let (day, s) ← parseDigits 2 s
  pure ((year, month, day), s)

/-- The pattern piece `time_patt = r"(?P<time>\d{2}:\d{2}:\d{2}),\d{3}"`: returns the `time`
capture group and the rest; the `,\d{3}` part is consumed but not captured. -/
def parseTime (s : List Char) : Option (List Char × List Char) := do
  let (t1, s) ← parseDigits 2 s
  let s ← parseChar ':' s
  let (t2, s) ← parseDigits 2 s
  let s ← parseChar ':' s
  let (t3, s) ← parseDigits 2 s
  let s ← parseChar ',' s
  let (_, s) ← parseDigits 3 s
  pure (t1 ++ ':' :: t2 ++ ':' :: t3, s)

/-- The pattern piece `logging_class_patt = r"([a-zA-Z0-9]+\.)+(?P<logging_class>[a-zA-Z0-9]+)"`:
returns the `logging_class` capture group and the rest. -/
def parseLoggingClass (s : List Char) : Option (List Char × List Char) := do
  let s ← parseSegs s
  takeWhile1 Char.isAlphanum s

/-- The tail of the pattern after the date and time:
`f" {thread_patt} {level_patt} {logging_class_patt} - (?P<message>.+)"` with
`level_patt = "(?P<level>[A-Z]+)"`; returns `(level, logging_class, message)`.
`.` does not match a newline, and trailing input after the match is ignored. -/
def parseTail (s : List Char) : Option (List Char × List Char × List Char) := do
  let s ← parseChar ' ' s
  let s ← parseChar '[' s
  let s ← parseThreadBody s
  let s ← parseChar ' ' s
  let (level, s) ← takeWhile1 Char.isUpper s
  let s ← parseChar ' ' s
  let (logging_class, s) ← parseLoggingClass s
  let s ← parseChar ' ' s
  let s ← parseChar '-' s
  let s ← parseChar ' ' s
  let (message, _) ← takeWhile1 (fun c => c ≠ '\n') s
  pure (level, logging_class, message)

/-- Python `re.match(pattern, line)`: anchored at the start.
`pattern = f"{date_patt} {time_patt} {thread_patt} {level_patt} {logging_class_patt} - (?P<message>.+)"`. -/
def matchPattern (s : List Char) : Option MatchGroups := do
  let (ymd, s) ← parseDate s
  let s ← parseChar ' ' s
  let (time, s) ← parseTime s
  let (level, logging_class, message) ← parseTail s
  pure { year := ymd.1, month := ymd.2.1, day := ymd.2.2, time,
         level, logging_class, message }

/-- Python `str.strip(chars)`: remove leading, then trailing, characters that
belong to `chars`. -/
def pyStrip (chars : List Char) (s : List Char) : List Char :=
  ((s.dropWhile fun c => chars.contains c).reverse.dropWhile fun c => chars.contains c).reverse

/-- The function `tidy_log_line` from src/main.py.  Note that the Python source writes
`.strip("\\n")`, and the Python string literal `"\\n"` denotes the two
characters backslash and `n`, not a newline. -/
def tidy_log_line (line : List Char) : List Char :=
  match matchPattern line with
  | none => line
  | some g =>
    pyStrip ['\\', 'n']
      (g.day ++ '/' :: g.month ++ ' ' :: g.time ++ ' ' :: g.logging_class ++
        ' ' :: g.level ++ ' ' :: '-' :: ' ' :: g.message)

/-!
## SourceCursor: the file handle and read loop of `FollowedLog`

A file is a `List Char`; the handle's read offset is a `Nat`.
-/

/-- The first line of a list of characters, including its terminating
newline; the whole list if it contains no newline. -/
def takeLine : List Char → List Char
  | [] => []
  | c :: cs => if c = '\n' then ['\n'] else c :: takeLine cs

/-- Python `file.readline()` at offset `pos`: the next line including its
terminating newline, a trailing fragment without a newline at end of file,
or `[]` (Python `""`, falsy) at end of file. -/
def readline (content : List Char) (pos : Nat) : List Char :=
  takeLine (content.drop pos)

/-- The loop of `FollowedLog.get_new_lines`:
`while (l := self.tail.readline()): new_lines.append(f(l))`.
Each iteration consumes at least one character, so `content.length + 1` fuel
never runs out before `readline` returns the empty string. -/
def read_lines_aux (f : List Char → List Char) :
    Nat → List Char → Nat → List (List Char) × Nat
  | 0, _, pos => ([], pos)
  | fuel + 1, content, pos =>
    let l := readline content pos
    if l.isEmpty then ([], pos)
    else
      let r := read_lines_aux f fuel content (pos + l.length)
      (f l :: r.1, r.2)

/-- The method `FollowedLog.get_new_lines`: every available line (tidied) from the
current offset, together with the file offset after the reads. -/
def get_new_lines (content : List Char) (pos : Nat) : List (List Char) × Nat :=
  read_lines_aux tidy_log_line (content.length + 1) content pos

/-- The same read loop without the formatting step: the raw lines the cursor
consumes from the file. -/
def raw_read (content : List Char) (pos : Nat) : List (List Char) × Nat :=
  read_lines_aux id (content.length + 1) content pos

/-- The lines of a file in the sense of Python file iteration: split after
every newline, with a final newline-less fragment kept. -/
def splitKeepNl : List Char → List (List Char)
  | [] => []
  | c :: cs =>
    if c = '\n' then ['\n'] :: splitKeepNl cs
    else
      match splitKeepNl cs with
      | [] => [[c]]
      | l :: ls => (c :: l) :: ls

def CATCHUP_LINES : Nat := 100

/-- The running `f.tell()` values recorded by the scan loop of
`FollowedLog.setup`: the byte offset just after each line. -/
def cumLengths : Nat → List (List Char) → List Nat
  | _, [] => []
  | acc, l :: ls => (acc + l.length) :: cumLengths (acc + l.length) ls

def line_end_positions (content : List Char) : List Nat :=
  cumLengths 0 (splitKeepNl content)

/-- The read offset at which `FollowedLog.setup` leaves the re-opened file:
`f.seek(line_end_positions[-CATCHUP_LINES - 1])` when the file has more than
`CATCHUP_LINES` lines (a Python negative index, i.e. `len - CATCHUP_LINES - 1`
from the front), else the start of the file. -/
def setup_offset (content : List Char) : Nat :=
  let leps := line_end_positions content
  if CATCHUP_LINES < leps.length then leps.getD (leps.length - CATCHUP_LINES - 1) 0
  else 0

/-- The method `FollowedLog.poll_lines`: before `setup` has assigned `self.tail`
(`tail = none`, covering both "not yet run" and "open failed") the poll
returns no lines and leaves the cursor unset; otherwise it reads every
available line and advances the offset. -/
def poll_lines (tail : Option Nat) (content : List Char) :
    List (List Char) × Option Nat :=
  match tail with
  | none => ([], none)
  | some pos =>
    let r := get_new_lines content pos
    (r.1, some r.2)

/-- A sequence of polls interleaved with appends to the file, starting from
file `content` and read offset `pos`: one `raw_read` per element of
`appends`, plus a final one.  Returns the raw lines of each poll and the
final offset. -/
def pollSeqRaw : List Char → Nat → List (List Char) → List (List (List Char)) × Nat
  | content, pos, [] =>
    let r := raw_read content pos
    ([r.1], r.2)
  | content, pos, a :: as =>
    let r := raw_read content pos
    let rest := pollSeqRaw (content ++ a) r.2 as
    (r.1 :: rest.1, rest.2)

/-!
## LogBuffer: `lines` / `lines_read` of `FollowedLog`
-/

structure LogBufferState where
  lines : List (List Char)
  lines_read : Nat

/-- The handler `FollowedLog.on_followed_log_log_updated`:
`self.lines = self.lines + ev.new_log_lines`. -/
def log_updated (st : LogBufferState) (new : List (List Char)) : LogBufferState :=
  { st with lines := st.lines ++ new }

/-- The method `FollowedLog.watch_lines`: writes `self.lines[i - 1]` to the RichLog for
`i in range(self.lines_read + 1, len(self.lines) + 1)` and then sets
`self.lines_read = len(self.lines)`, guarded by
`if self.lines and self.lines_read < len(self.lines)`.  Returns the written
lines and the resulting state. -/
def watch_lines (st : LogBufferState) : List (List Char) × LogBufferState :=
  if st.lines ≠ [] ∧ st.lines_read < st.lines.length then
    ((List.range' (st.lines_read + 1) (st.lines.length - st.lines_read)).map
        (fun i => st.lines.getD (i - 1) []),
     { st with lines_read := st.lines.length })
  else ([], st)

/-!
## PanelLayout: `LogFollowApp.on_key`
-/

/-- The loop `for j, c in enumerate(children): c.display = (i - 1 == j)`,
with `j` starting at the given index. -/
def focusLoop (i : Nat) : Nat → List Bool → List Bool
  | _, [] => []
  | j, _ :: cs => (i - 1 == j) :: focusLoop i (j + 1) cs

/-- The handler `LogFollowApp.on_key` restricted to a digit key `i`, acting on the
`display` flags of the `FollowedLog` children: `0` shows every panel,
`1 <= i <= len(children)` shows exactly panel `i - 1`, and any larger digit
falls through both branches and changes nothing. -/
def on_key_digit (children : List Bool) (i : Nat) : List Bool :=
  if i == 0 then children.map (fun _ => true)
  else if i ≤ children.length then focusLoop i 0 children
  else children

/-!
## Per-instance state vs the class-level `lines = reactive([])` default
-/

/-- One `FollowedLog` instance: `lines = none` means the instance has no
instance-level `lines` attribute yet, so attribute lookup falls back to the
class-level default. -/
structure FLInstance where
  lines : Option (List (List Char))
  lines_read : Nat

/-- The class attribute `FollowedLog.lines` (the shared `reactive([])`
default) together with every live instance. -/
structure FLWorld where
  class_lines : List (List Char)
  instances : List FLInstance

/-- Python attribute lookup for `self.lines`: the instance attribute if one
has been assigned, else the class-level default. -/
def observed_lines (w : FLWorld) (inst : FLInstance) : List (List Char) :=
  inst.lines.getD w.class_lines

/-- The handler `on_followed_log_log_updated` on instance `i` of the world:
`self.lines = self.lines + ev.new_log_lines` reads via attribute lookup and
rebinds the *instance* attribute to a freshly built list; the class-level
default is not mutated. -/
def handle_log_updated (w : FLWorld) (i : Nat) (new : List (List Char)) : FLWorld :=
  match w.instances[i]? with
  | none => w
  | some inst =>
    { w with instances :=
        w.instances.set i { inst with lines := some (observed_lines w inst ++ new) } }


/-!
## Line-splitting and read-loop lemmas
-/

theorem takeLine_eq_nil_iff (s : List Char) : takeLine s = [] ↔ s = [] := by
  cases s with
  | nil => simp [takeLine]
  | cons c cs =>
    simp only [takeLine]
    split <;> simp

theorem splitKeepNl_eq_cons (s : List Char) (h : s ≠ []) :
    splitKeepNl s = takeLine s :: splitKeepNl (s.drop (takeLine s).length) := by
  induction s with
  | nil => exact absurd rfl h
  | cons c cs ih =>
    by_cases hc : c = '\n'
    · subst hc
      simp [splitKeepNl, takeLine]
    · by_cases hcs : cs = []
      · subst hcs
        simp [splitKeepNl, takeLine, hc]
      · simp only [splitKeepNl, takeLine, if_neg hc, ih hcs,
          List.length_cons, List.drop_succ_cons]

theorem splitKeepNl_flatten (s : List Char) : (splitKeepNl s).flatten = s := by
  induction s with
  | nil => simp [splitKeepNl]
  | cons c cs ih =>
    by_cases hc : c = '\n'
    · subst hc
      simp [splitKeepNl, ih]
    · simp only [splitKeepNl, if_neg hc]
      cases hcs : splitKeepNl cs with
      | nil =>
        have hcs' : cs = [] := by simpa [hcs] using ih.symm
        simp [hcs']
      | cons l ls =>
        rw [hcs] at ih
        simp only [List.flatten_cons, List.append_assoc] at ih ⊢
        simp [ih]

theorem read_lines_aux_eq (f : List Char → List Char) :
    ∀ fuel content pos, (content.drop pos).length < fuel →
      read_lines_aux f fuel content pos =
        ((splitKeepNl (content.drop pos)).map f, pos + (content.drop pos).length) := by
  intro fuel
  induction fuel with
  | zero => exact fun content pos h => absurd h (Nat.not_lt_zero _)
  | succ fuel ih =>
    intro content pos h
    by_cases hs : content.drop pos = []
    · simp [read_lines_aux, readline, hs, takeLine, splitKeepNl]
    · have hl : takeLine (content.drop pos) ≠ [] :=
        fun he => hs ((takeLine_eq_nil_iff _).mp he)
      have hlen : 0 < (takeLine (content.drop pos)).length := List.length_pos.mpr hl
      have hdrop : content.drop (pos + (takeLine (content.drop pos)).length)
          = (content.drop pos).drop (takeLine (content.drop pos)).length := by
        rw [List.drop_drop]
      have hb : 0 < (content.drop pos).length := List.length_pos.mpr hs
      have hrec : ((content.drop (pos + (takeLine (content.drop pos)).length)).length) < fuel := by
        rw [hdrop, List.length_drop]
        omega
      simp only [read_lines_aux, readline]
      rw [if_neg (by simpa using hl)]
      rw [ih _ _ hrec]
      rw [hdrop, splitKeepNl_eq_cons _ hs]
      have hpos : pos ≤ content.length := by
        by_contra hgt
        exact hs (List.drop_eq_nil_of_le (by omega))
      have hle : (takeLine (content.drop pos)).length ≤ (content.drop pos).length := by
        conv_rhs => rw [← splitKeepNl_flatten (content.drop pos)]
        rw [splitKeepNl_eq_cons _ hs]
        simp
      simp only [List.map_cons, List.length_drop]
      congr 1
      have hd := List.length_drop (pos + (takeLine (content.drop pos)).length) content
      have hb2 := List.length_drop pos content
      omega

theorem get_new_lines_eq (content : List Char) (pos : Nat) :
    get_new_lines content pos =
      ((splitKeepNl (content.drop pos)).map tidy_log_line,
        pos + (content.drop pos).length) := by
  apply read_lines_aux_eq
  have := List.length_drop pos content
  omega

theorem raw_read_eq (content : List Char) (pos : Nat) :
    raw_read content pos =
      (splitKeepNl (content.drop pos), pos + (content.drop pos).length) := by
  have h := read_lines_aux_eq id (content.length + 1) content pos
    (by have := List.length_drop pos content; omega)
  simpa [raw_read] using h

theorem raw_read_final_pos (content : List Char) (pos : Nat) (h : pos ≤ content.length) :
    (raw_read content pos).2 = content.length := by
  rw [raw_read_eq]
  simp [List.length_drop]
  omega

theorem splitKeepNl_flatten_drop_aux :
    ∀ n (c : List Char), c.length ≤ n → ∀ k,
      splitKeepNl (((splitKeepNl c).drop k).flatten) = (splitKeepNl c).drop k := by
  intro n
  induction n with
  | zero =>
    intro c hc k
    have hc' : c = [] := List.length_eq_zero.mp (Nat.le_zero.mp hc)
    subst hc'
    simp [splitKeepNl]
  | succ n ih =>
    intro c hc k
    by_cases hcnil : c = []
    · subst hcnil
      simp [splitKeepNl]
    · cases k with
      | zero => simp [splitKeepNl_flatten]
      | succ k =>
        rw [splitKeepNl_eq_cons _ hcnil]
        simp only [List.drop_succ_cons]
        have h1 : 0 < (takeLine c).length :=
          List.length_pos.mpr (fun he => hcnil ((takeLine_eq_nil_iff _).mp he))
        have h2 := List.length_drop (takeLine c).length c
        exact ih _ (by omega) k

theorem splitKeepNl_flatten_drop (c : List Char) (k : Nat) :
    splitKeepNl (((splitKeepNl c).drop k).flatten) = (splitKeepNl c).drop k :=
  splitKeepNl_flatten_drop_aux c.length c le_rfl k

theorem cumLengths_length (ls : List (List Char)) :
    ∀ acc, (cumLengths acc ls).length = ls.length := by
  induction ls with
  | nil => intro acc; simp [cumLengths]
  | cons l ls ih => intro acc; simp [cumLengths, ih]

theorem cumLengths_getD (ls : List (List Char)) :
    ∀ acc i, i < ls.length →
      (cumLengths acc ls).getD i 0 = acc + ((ls.take (i + 1)).flatten).length := by
  induction ls with
  | nil => intro acc i h; simp at h
  | cons l ls ih =>
    intro acc i h
    cases i with
    | zero => simp [cumLengths]
    | succ i =>
      simp only [cumLengths, List.getD_cons_succ, List.take_succ_cons,
        List.flatten_cons, List.length_append]
      rw [ih _ _ (by simpa using h)]
      omega

theorem drop_flatten_take (L : List (List Char)) (m : Nat) :
    (L.flatten).drop ((L.take m).flatten.length) = (L.drop m).flatten := by
  have h : L.flatten = (L.take m).flatten ++ (L.drop m).flatten := by
    rw [← List.flatten_append, List.take_append_drop]
  rw [h, List.drop_left]

/-- C1 counterexample input: the file "ab" (one write that landed mid-line,
no newline yet). `get_new_lines` *does* deliver the partial record "ab" and
consumes it (the offset advances to end of file), so the partial trailing
line is neither withheld nor left unconsumed. -/
theorem c1_counterexample :
    (get_new_lines ('a' :: 'b' :: []) 0).1 = [['a', 'b']] ∧
    (get_new_lines ('a' :: 'b' :: []) 0).2 = 2 ∧
    ('a' :: 'b' :: []).getLast? ≠ some '\n' := by decide

/-- C1 (amended): each poll consumes the file to its current end, a trailing
partial line included; concatenating the raw lines of every poll across any
append-only write sequence equals the file's content from the catch-up
offset onward, in order, with no repeats and no gaps. -/
theorem c1_amended_delivery :
    ∀ (appends : List (List Char)) (content : List Char) (pos : Nat),
      pos ≤ content.length →
      ((pollSeqRaw content pos appends).1.map List.flatten).flatten
          = ((content :: appends).flatten).drop pos
        ∧ (pollSeqRaw content pos appends).2 = ((content :: appends).flatten).length := by
  intro appends
  induction appends with
  | nil =>
    intro content pos h
    simp only [pollSeqRaw, List.map_cons, List.map_nil, List.flatten_cons,
      List.flatten_nil, List.append_nil]
    rw [raw_read_eq]
    constructor
    · exact splitKeepNl_flatten _
    · rw [List.length_drop]
      omega
  | cons a as ih =>
    intro content pos h
    have hfin : (raw_read content pos).2 = content.length := raw_read_final_pos content pos h
    have hle : content.length ≤ (content ++ a).length := by
      rw [List.length_append]; omega
    obtain ⟨ih1, ih2⟩ := ih (content ++ a) content.length hle
    simp only [pollSeqRaw, hfin, List.map_cons, List.flatten_cons]
    constructor
    · rw [ih1, raw_read_eq]
      simp only [List.flatten_cons]
      rw [splitKeepNl_flatten]
      rw [List.drop_append_of_le_length h]
      congr 1
      rw [List.append_assoc, List.drop_left]
    · rw [ih2]
      simp [List.append_assoc]

theorem c1_amended_delivery_witness :
    0 ≤ ('a' :: 'b' :: [] : List Char).length ∧
    (((pollSeqRaw ('a' :: 'b' :: []) 0 [['c', '\n']]).1.map List.flatten).flatten
        = (((('a' :: 'b' :: []) : List Char) :: [['c', '\n']]).flatten).drop 0
      ∧ (pollSeqRaw ('a' :: 'b' :: []) 0 [['c', '\n']]).2
          = (((('a' :: 'b' :: []) : List Char) :: [['c', '\n']]).flatten).length) :=
  ⟨by decide, c1_amended_delivery [['c', '\n']] ('a' :: 'b' :: []) 0 (by decide)⟩

/-- C3: catch-up positioning.  With more than `CATCHUP_LINES` lines the
offset is the total length of all but the last `CATCHUP_LINES` lines, i.e.
the start of the `CATCHUP_LINES`-th-from-last line, and the cursor
subsequently delivers exactly the last `CATCHUP_LINES` lines; with at most
`CATCHUP_LINES` lines the offset is the start of the file and every line is
delivered. -/
theorem c3_catchup_positioning (content : List Char) :
    (CATCHUP_LINES < (splitKeepNl content).length →
       setup_offset content
           = (((splitKeepNl content).take
                ((splitKeepNl content).length - CATCHUP_LINES)).flatten).length
         ∧ (raw_read content (setup_offset content)).1
             = (splitKeepNl content).drop
                 ((splitKeepNl content).length - CATCHUP_LINES))
    ∧ ((splitKeepNl content).length ≤ CATCHUP_LINES →
       setup_offset content = 0
         ∧ (raw_read content 0).1 = splitKeepNl content) := by
  have hn : (line_end_positions content).length = (splitKeepNl content).length := by
    rw [line_end_positions, cumLengths_length]
  constructor
  · intro h
    have hc : CATCHUP_LINES < (line_end_positions content).length := by
      rw [hn]; exact h
    have hoff : setup_offset content =
        (((splitKeepNl content).take
            ((splitKeepNl content).length - CATCHUP_LINES)).flatten).length := by
      simp only [setup_offset]
      rw [if_pos hc, hn, line_end_positions]
      rw [cumLengths_getD _ 0 _ (by omega)]
      rw [show (splitKeepNl content).length - CATCHUP_LINES - 1 + 1
            = (splitKeepNl content).length - CATCHUP_LINES from by omega]
      omega
    refine ⟨hoff, ?_⟩
    have hdrop := drop_flatten_take (splitKeepNl content)
      ((splitKeepNl content).length - CATCHUP_LINES)
    rw [splitKeepNl_flatten] at hdrop
    have h1 : (raw_read content (setup_offset content)).1
        = splitKeepNl (content.drop (setup_offset content)) := by
      rw [raw_read_eq]
    rw [h1, hoff, hdrop, splitKeepNl_flatten_drop]
  · intro h
    have hc : ¬ CATCHUP_LINES < (line_end_positions content).length := by
      rw [hn]; omega
    constructor
    · simp only [setup_offset]
      rw [if_neg hc]
    · rw [raw_read_eq]
      simp

theorem c3_catchup_positioning_witness :
    (CATCHUP_LINES < (splitKeepNl ((List.replicate 250 ('x' :: '\n' :: [])).flatten)).length
      ∧ (raw_read ((List.replicate 250 ('x' :: '\n' :: [])).flatten)
            (setup_offset ((List.replicate 250 ('x' :: '\n' :: [])).flatten))).1
          = (splitKeepNl ((List.replicate 250 ('x' :: '\n' :: [])).flatten)).drop
              ((splitKeepNl ((List.replicate 250 ('x' :: '\n' :: [])).flatten)).length
                - CATCHUP_LINES))
    ∧ ((splitKeepNl ((List.replicate 50 ('y' :: '\n' :: [])).flatten)).length ≤ CATCHUP_LINES
      ∧ setup_offset ((List.replicate 50 ('y' :: '\n' :: [])).flatten) = 0) :=
  ⟨⟨by decide, ((c3_catchup_positioning _).1 (by decide)).2⟩,
   ⟨by decide, ((c3_catchup_positioning _).2 (by decide)).1⟩⟩

/-!
## Formatter lemmas
-/

theorem parseDigits_spec :
    ∀ (n : Nat) (s ds r : List Char), parseDigits n s = some (ds, r) →
      ds.length = n ∧ ∀ c ∈ ds, c.isDigit = true := by
  intro n
  induction n with
  | zero =>
    intro s ds r h
    simp only [parseDigits, Option.some.injEq, Prod.mk.injEq] at h
    obtain ⟨h1, h2⟩ := h
    subst h1
    simp
  | succ n ih =>
    intro s ds r h
    cases s with
    | nil => simp [parseDigits] at h
    | cons c cs =>
      by_cases hc : c.isDigit = true
      · simp only [parseDigits, if_pos hc, Option.map_eq_some'] at h
        obtain ⟨⟨ds', r'⟩, hp, heq⟩ := h
        obtain ⟨hds, hr⟩ := Prod.mk.injEq .. |>.mp heq
        subst hds
        obtain ⟨hl, hd⟩ := ih cs ds' r' hp
        refine ⟨by simp [hl], ?_⟩
        intro x hx
        rcases List.mem_cons.mp hx with rfl | hx'
        · exact hc
        · exact hd x hx'
      · simp [parseDigits, hc] at h

theorem parseDate_spec (s : List Char) (y mo d : List Char) (r : List Char)
    (h : parseDate s = some ((y, mo, d), r)) :
    (mo.length = 2 ∧ ∀ c ∈ mo, c.isDigit = true)
      ∧ (d.length = 2 ∧ ∀ c ∈ d, c.isDigit = true) := by
  unfold parseDate at h
  cases h1 : parseDigits 4 s with
  | none => simp [h1] at h
  | some p1 =>
    obtain ⟨y1, s1⟩ := p1
    simp [h1] at h
    cases h2 : parseChar '-' s1 with
    | none => simp [h2] at h
    | some s2 =>
      simp [h2] at h
      cases h3 : parseDigits 2 s2 with
      | none => simp [h3] at h
      | some p2 =>
        obtain ⟨mo1, s3⟩ := p2
        simp [h3] at h
        cases h4 : parseChar '-' s3 with
        | none => simp [h4] at h
        | some s4 =>
          simp [h4] at h
          cases h5 : parseDigits 2 s4 with
          | none => simp [h5] at h
          | some p3 =>
            obtain ⟨d1, s5⟩ := p3
            simp [h5] at h
            obtain ⟨⟨hy, hmo, hd⟩, hr⟩ := h
            subst hmo
            subst hd
            exact ⟨(parseDigits_spec 2 s2 mo1 s3 h3).imp id id,
              (parseDigits_spec 2 s4 d1 s5 h5).imp id id⟩

theorem matchPattern_day_month (s : List Char) (g : MatchGroups)
    (h : matchPattern s = some g) :
    (g.month.length = 2 ∧ ∀ c ∈ g.month, c.isDigit = true)
      ∧ (g.day.length = 2 ∧ ∀ c ∈ g.day, c.isDigit = true) := by
  unfold matchPattern at h
  cases h1 : parseDate s with
  | none => simp [h1] at h
  | some p1 =>
    obtain ⟨⟨y1, mo1, d1⟩, s1⟩ := p1
    simp [h1] at h
    cases h2 : parseChar ' ' s1 with
    | none => simp [h2] at h
    | some s2 =>
      simp [h2] at h
      cases h3 : parseTime s2 with
      | none => simp [h3] at h
      | some p2 =>
        obtain ⟨time1, s3⟩ := p2
        simp [h3] at h
        cases h4 : parseTail s3 with
        | none => simp [h4] at h
        | some p3 =>
          obtain ⟨lv, lc, msg⟩ := p3
          simp [h4] at h
          subst h
          exact (parseDate_spec s y1 mo1 d1 s1 h1)

theorem digit_not_strip (c : Char) (h : c.isDigit = true) :
    (['\\', 'n'] : List Char).contains c = false := by
  by_cases h1 : c = '\\'
  · subst h1
    exact absurd h (by decide)
  · by_cases h2 : c = 'n'
    · subst h2
      exact absurd h (by decide)
    · simp [h1, h2]

theorem pyStrip_four (cs : List Char) (a b x m : Char) (t : List Char)
    (ha : cs.contains a = false) (hm : cs.contains m = false) :
    ∃ t', pyStrip cs (a :: b :: x :: m :: t) = a :: b :: x :: m :: t' := by
  unfold pyStrip
  rw [List.dropWhile_cons]
  rw [if_neg (fun hh => by rw [ha] at hh; exact Bool.false_ne_true hh)]
  rw [show (a :: b :: x :: m :: t).reverse
      = t.reverse ++ (m :: x :: b :: a :: []) from by simp]
  rw [List.dropWhile_append]
  by_cases he : ((t.reverse.dropWhile fun c => cs.contains c).isEmpty : Bool) = true
  · rw [if_pos he]
    rw [List.dropWhile_cons,
      if_neg (fun hh => by rw [hm] at hh; exact Bool.false_ne_true hh)]
    exact ⟨[], by simp⟩
  · rw [if_neg he]
    refine ⟨(t.reverse.dropWhile fun c => cs.contains c).reverse, ?_⟩
    simp

theorem matchPattern_slash (x y : Char) (t : List Char) :
    matchPattern (x :: y :: '/' :: t) = none := by
  have hslash : ('/' : Char).isDigit = false := by decide
  have h4 : parseDigits 4 (x :: y :: '/' :: t) = none := by
    by_cases hx : x.isDigit = true <;> by_cases hy : y.isDigit = true <;>
      simp [parseDigits, hx, hy, hslash]
  simp [matchPattern, parseDate, h4]

/-- C5: a line that does not match the record grammar passes through
`tidy_log_line` unchanged, and formatting it twice equals formatting once. -/
theorem c5_passthrough (line : List Char) (h : matchPattern line = none) :
    tidy_log_line line = line
      ∧ tidy_log_line (tidy_log_line line) = tidy_log_line line := by
  have h1 : tidy_log_line line = line := by
    simp [tidy_log_line, h]
  exact ⟨h1, by rw [h1, h1]⟩

theorem c5_passthrough_witness :
    matchPattern ('h' :: 'i' :: []) = none
      ∧ (tidy_log_line ('h' :: 'i' :: []) = ('h' :: 'i' :: [])
        ∧ tidy_log_line (tidy_log_line ('h' :: 'i' :: []))
            = tidy_log_line ('h' :: 'i' :: [])) :=
  ⟨by rfl, c5_passthrough ('h' :: 'i' :: []) (by rfl)⟩

/-- C2 counterexample: on the record from the claim the formatter does *not*
produce `01/05 10:00:00,000 Worker INFO - started`, because the `time`
capture group of `time_patt` excludes the `,\d{3}` millisecond part. -/
theorem c2_counterexample :
    tidy_log_line "2024-05-01 10:00:00,000 [7] INFO a.b.Worker - started".toList
      ≠ "01/05 10:00:00,000 Worker INFO - started".toList := by decide

/-- C2 (amended): the formatted output drops the milliseconds:
`01/05 10:00:00 Worker INFO - started`. -/
theorem c2_amended_format :
    tidy_log_line "2024-05-01 10:00:00,000 [7] INFO a.b.Worker - started".toList
      = "01/05 10:00:00 Worker INFO - started".toList := by decide

/-- C4: the source's `.strip("\\n")` strips the *characters* backslash and
`n` (the Python literal `"\\n"` is those two characters, not a newline), so
a matching record whose message ends in `n` loses that letter: the message
`begun` comes out as `begu` and is not a suffix of the output.  The output
still begins with the day/month field. -/
theorem c4_strip_bug_eval :
    tidy_log_line "2024-05-01 10:00:00,000 [7] INFO a.b.Worker - begun".toList
      = "01/05 10:00:00 Worker INFO - begu".toList
    ∧ ("begun".toList).isSuffixOf
        (tidy_log_line "2024-05-01 10:00:00,000 [7] INFO a.b.Worker - begun".toList)
          = false
    ∧ (matchPattern "2024-05-01 10:00:00,000 [7] INFO a.b.Worker - begun".toList).isSome
        = true
    ∧ ("01/05".toList).isPrefixOf
        (tidy_log_line "2024-05-01 10:00:00,000 [7] INFO a.b.Worker - begun".toList)
          = true := by decide

/-- C6 counterexample: a line that matches the record grammar on which
formatting twice *equals* formatting once (the formatted output no longer
matches the grammar, so the second application is the identity). -/
theorem c6_counterexample :
    (matchPattern "2024-05-01 10:00:00,000 [7] INFO a.b.Worker - started".toList).isSome
        = true
    ∧ tidy_log_line
          (tidy_log_line "2024-05-01 10:00:00,000 [7] INFO a.b.Worker - started".toList)
        = tidy_log_line "2024-05-01 10:00:00,000 [7] INFO a.b.Worker - started".toList := by
  decide

/-- C6 (amended): `tidy_log_line` is idempotent on *every* input.  For a
matching line the output starts `<d><d>/`, whose third character `/` can
never begin a `\d{4}` year, so the output does not match the grammar and a
second application returns it unchanged. -/
theorem c6_amended_idempotent (line : List Char) :
    tidy_log_line (tidy_log_line line) = tidy_log_line line := by
  cases hm : matchPattern line with
  | none => simp [tidy_log_line, hm]
  | some g =>
    obtain ⟨⟨hm2, hmd⟩, ⟨hd2, hdd⟩⟩ := matchPattern_day_month line g hm
    obtain ⟨m1, m2, hm12⟩ := List.length_eq_two.mp hm2
    obtain ⟨a, b, hab⟩ := List.length_eq_two.mp hd2
    have ha : (['\\', 'n'] : List Char).contains a = false :=
      digit_not_strip a (hdd a (by simp [hab]))
    have hm1 : (['\\', 'n'] : List Char).contains m1 = false :=
      digit_not_strip m1 (hmd m1 (by simp [hm12]))
    have hshape : tidy_log_line line
        = pyStrip ['\\', 'n']
            (a :: b :: '/' :: m1 ::
              (m2 :: ' ' :: (g.time ++ ' ' :: g.logging_class ++ ' ' :: g.level ++
                ' ' :: '-' :: ' ' :: g.message))) := by
      simp [tidy_log_line, hm, hab, hm12]
    obtain ⟨t', ht⟩ := pyStrip_four ['\\', 'n'] a b '/' m1
      (m2 :: ' ' :: (g.time ++ ' ' :: g.logging_class ++ ' ' :: g.level ++
        ' ' :: '-' :: ' ' :: g.message)) ha hm1
    have htl : tidy_log_line line = a :: b :: '/' :: m1 :: t' := hshape.trans ht
    have hnone : matchPattern (a :: b :: '/' :: m1 :: t') = none :=
      matchPattern_slash a b (m1 :: t')
    calc tidy_log_line (tidy_log_line line)
        = tidy_log_line (a :: b :: '/' :: m1 :: t') := by rw [htl]
      _ = a :: b :: '/' :: m1 :: t' := by simp [tidy_log_line, hnone]
      _ = tidy_log_line line := htl.symm

/-!
## PanelLayout, poll readiness, LogBuffer, instance independence
-/

theorem focusLoop_eq (i : Nat) :
    ∀ (j : Nat) (l : List Bool),
      focusLoop i j l = (List.range' j l.length).map (fun k => i - 1 == k) := by
  intro j l
  induction l generalizing j with
  | nil => simp [focusLoop]
  | cons c cs ih => simp [focusLoop, List.range'_succ, ih]

/-- C7: digit `0` makes every panel visible; a digit `d` with
`1 <= d <= source_count` makes exactly panel `d - 1` visible; a digit above
`source_count` changes nothing; and the 3-source scenario
`2`, then `0`, then `9` behaves as claimed. -/
theorem c7_panel_layout :
    (∀ s : List Bool, on_key_digit s 0 = List.replicate s.length true)
    ∧ (∀ (s : List Bool) (d : Nat), 1 ≤ d → d ≤ s.length →
        on_key_digit s d = (List.range s.length).map (fun k => d - 1 == k))
    ∧ (∀ (s : List Bool) (d : Nat), s.length < d → on_key_digit s d = s)
    ∧ (on_key_digit (true :: true :: true :: []) 2 = (false :: true :: false :: [])
       ∧ on_key_digit (false :: true :: false :: []) 0 = (true :: true :: true :: [])
       ∧ on_key_digit (true :: true :: true :: []) 9 = (true :: true :: true :: [])) := by
  refine ⟨?_, ?_, ?_, by decide⟩
  · intro s
    simp [on_key_digit, List.map_const']
  · intro s d h1 h2
    have hd0 : (d == 0) = false := by
      simp only [beq_eq_false_iff_ne, Ne]
      omega
    simp only [on_key_digit, hd0, Bool.false_eq_true, if_false, if_pos h2]
    rw [focusLoop_eq, List.range_eq_range']
  · intro s d h
    have hd0 : (d == 0) = false := by
      simp only [beq_eq_false_iff_ne, Ne]
      omega
    simp only [on_key_digit, hd0, Bool.false_eq_true, if_false]
    rw [if_neg (by omega)]

theorem c7_panel_layout_witness :
    (1 ≤ 2 ∧ 2 ≤ (true :: true :: true :: []).length)
    ∧ on_key_digit (true :: true :: true :: []) 2
        = (List.range (true :: true :: true :: []).length).map (fun k => 2 - 1 == k) :=
  ⟨⟨by decide, by decide⟩, c7_panel_layout.2.1 (true :: true :: true :: []) 2 (by decide) (by decide)⟩

/-- C8: a poll issued while `self.tail` is still unset — `setup` not finished,
or the file could never be opened so `setup` never assigns it — returns no
lines and no error, and leaves the cursor unset for the next poll. -/
theorem c8_poll_not_ready (content : List Char) :
    poll_lines none content = ([], none) := rfl

theorem range'_map_getD_drop_aux :
    ∀ (n : Nat) (l : List (List Char)) (r : Nat), l.length - r ≤ n →
      (List.range' (r + 1) (l.length - r)).map (fun i => l.getD (i - 1) [])
        = l.drop r := by
  intro n
  induction n with
  | zero =>
    intro l r h
    have h0 : l.length - r = 0 := Nat.le_zero.mp h
    have hle : l.length ≤ r := by omega
    rw [h0]
    simp [List.drop_eq_nil_of_le hle]
  | succ n ih =>
    intro l r h
    by_cases hr : l.length ≤ r
    · have h0 : l.length - r = 0 := by omega
      rw [h0]
      simp [List.drop_eq_nil_of_le hr]
    · push_neg at hr
      have h1 : l.length - r = (l.length - (r + 1)) + 1 := by omega
      rw [h1, List.range'_succ, List.map_cons]
      rw [List.drop_eq_getElem_cons hr]
      congr 1
      · rw [show r + 1 - 1 = r from rfl]
        exact List.getD_eq_getElem _ _ hr
      · exact ih l (r + 1) (by omega)

theorem range'_map_getD_drop (l : List (List Char)) (r : Nat) :
    (List.range' (r + 1) (l.length - r)).map (fun i => l.getD (i - 1) [])
      = l.drop r :=
  range'_map_getD_drop_aux (l.length - r) l r le_rfl

def logbuf_inv (st : LogBufferState) : Prop := st.lines_read ≤ st.lines.length

/-- C9: assuming the watermark invariant `lines_read <= len(lines)`, an
append preserves it, a drain preserves it, a drain writes exactly the slice
from `lines_read` to the end and advances `lines_read` to the sequence
length, and a second drain with no intervening append writes nothing. -/
theorem c9_logbuffer (st : LogBufferState) (new : List (List Char))
    (h : logbuf_inv st) :
    logbuf_inv (log_updated st new)
    ∧ logbuf_inv (watch_lines st).2
    ∧ (watch_lines st).1 = st.lines.drop st.lines_read
    ∧ (watch_lines st).2.lines_read = st.lines.length
    ∧ (watch_lines (watch_lines st).2).1 = [] := by
  unfold logbuf_inv at h
  by_cases hc : st.lines ≠ [] ∧ st.lines_read < st.lines.length
  · have hw : watch_lines st
        = (st.lines.drop st.lines_read, { st with lines_read := st.lines.length }) := by
      unfold watch_lines
      rw [if_pos hc]
      rw [range'_map_getD_drop]
    rw [hw]
    refine ⟨?_, ?_, rfl, rfl, ?_⟩
    · unfold logbuf_inv log_updated
      simp only [List.length_append]
      omega
    · unfold logbuf_inv
      simp
    · unfold watch_lines
      rw [if_neg (fun hh => Nat.lt_irrefl _ hh.2)]
  · have hw : watch_lines st = ([], st) := by
      unfold watch_lines
      rw [if_neg hc]
    push_neg at hc
    have hlr : st.lines_read = st.lines.length := by
      by_cases hnil : st.lines = []
      · rw [hnil] at h ⊢
        simpa using h
      · have := hc hnil
        omega
    rw [hw]
    refine ⟨?_, h, ?_, hlr, ?_⟩
    · unfold logbuf_inv log_updated
      simp only [List.length_append]
      omega
    · exact (List.drop_eq_nil_of_le (by omega)).symm
    · rw [hw]

theorem c9_logbuffer_witness :
    logbuf_inv (LogBufferState.mk (('a' :: []) :: []) 0)
    ∧ (logbuf_inv (log_updated (LogBufferState.mk (('a' :: []) :: []) 0) (('b' :: []) :: []))
      ∧ logbuf_inv (watch_lines (LogBufferState.mk (('a' :: []) :: []) 0)).2
      ∧ (watch_lines (LogBufferState.mk (('a' :: []) :: []) 0)).1
          = (LogBufferState.mk (('a' :: []) :: []) 0).lines.drop
              (LogBufferState.mk (('a' :: []) :: []) 0).lines_read
      ∧ (watch_lines (LogBufferState.mk (('a' :: []) :: []) 0)).2.lines_read
          = (LogBufferState.mk (('a' :: []) :: []) 0).lines.length
      ∧ (watch_lines (watch_lines (LogBufferState.mk (('a' :: []) :: []) 0)).2).1 = []) :=
  ⟨Nat.zero_le _, c9_logbuffer (LogBufferState.mk (('a' :: []) :: []) 0)
    (('b' :: []) :: []) (Nat.zero_le _)⟩

/-- C10: handling a `LogUpdated` event on instance `i` rebinds that
instance's `lines` attribute to a fresh list; the class-level default and
every other instance's observed `lines` and `lines_read` are unchanged. -/
theorem c10_instance_independence (w : FLWorld) (i j : Nat)
    (new : List (List Char)) (h : j ≠ i) :
    (handle_log_updated w i new).class_lines = w.class_lines
    ∧ (handle_log_updated w i new).instances[j]? = w.instances[j]?
    ∧ ((handle_log_updated w i new).instances[j]?).map
        (fun inst => (observed_lines (handle_log_updated w i new) inst, inst.lines_read))
      = (w.instances[j]?).map (fun inst => (observed_lines w inst, inst.lines_read)) := by
  unfold handle_log_updated
  cases hi : w.instances[i]? with
  | none => exact ⟨rfl, rfl, rfl⟩
  | some inst =>
    have hget : (w.instances.set i
        { inst with lines := some (observed_lines w inst ++ new) })[j]?
        = w.instances[j]? := List.getElem?_set_ne (fun he => h he.symm)
    refine ⟨rfl, hget, ?_⟩
    show ((w.instances.set i _)[j]?).map _ = _
    rw [hget]
    rfl

theorem c10_instance_independence_witness :
    (1 ≠ 0)
    ∧ ((handle_log_updated
          (FLWorld.mk (('c' :: []) :: []) (FLInstance.mk none 0 :: FLInstance.mk (some (('x' :: []) :: [])) 1 :: []))
          0 (('z' :: []) :: [])).class_lines
        = (FLWorld.mk (('c' :: []) :: []) (FLInstance.mk none 0 :: FLInstance.mk (some (('x' :: []) :: [])) 1 :: [])).class_lines
      ∧ (handle_log_updated
          (FLWorld.mk (('c' :: []) :: []) (FLInstance.mk none 0 :: FLInstance.mk (some (('x' :: []) :: [])) 1 :: []))
          0 (('z' :: []) :: [])).instances[1]?
        = (FLWorld.mk (('c' :: []) :: []) (FLInstance.mk none 0 :: FLInstance.mk (some (('x' :: []) :: [])) 1 :: [])).instances[1]?
      ∧ ((handle_log_updated
          (FLWorld.mk (('c' :: []) :: []) (FLInstance.mk none 0 :: FLInstance.mk (some (('x' :: []) :: [])) 1 :: []))
          0 (('z' :: []) :: [])).instances[1]?).map
          (fun inst => (observed_lines (handle_log_updated
            (FLWorld.mk (('c' :: []) :: []) (FLInstance.mk none 0 :: FLInstance.mk (some (('x' :: []) :: [])) 1 :: []))
            0 (('z' :: []) :: [])) inst, inst.lines_read))
        = ((FLWorld.mk (('c' :: []) :: []) (FLInstance.mk none 0 :: FLInstance.mk (some (('x' :: []) :: [])) 1 :: [])).instances[1]?).map
          (fun inst => (observed_lines
            (FLWorld.mk (('c' :: []) :: []) (FLInstance.mk none 0 :: FLInstance.mk (some (('x' :: []) :: [])) 1 :: []))
            inst, inst.lines_read))) :=
  ⟨by decide, c10_instance_independence
    (FLWorld.mk (('c' :: []) :: []) (FLInstance.mk none 0 :: FLInstance.mk (some (('x' :: []) :: [])) 1 :: []))
    0 1 (('z' :: []) :: []) (by decide)⟩
